import Mathlib

/- Shallow embedding of the grounded-rag-qa chunking and retrieval core
   (src/app/pipelines/chunking.py and src/app/services/retrieval_service.py).
   Python strings are modelled as lists of characters, similarity scores as
   rationals, and Python dictionaries as association lists read through
   key lookup. -/

abbrev Str := List Char

/-- Whitespace class used by the regex backslash-s escape and by str.strip
    (the ASCII part, which is all the pipeline relies on). -/
def isPySpace (c : Char) : Bool :=
  c = ' ' || c = '\t' || c = '\n' || c = '\r' || c = '\x0b' || c = '\x0c'

/-- Python str.strip: drop whitespace from both ends. -/
def strip (l : Str) : Str :=
  ((l.dropWhile isPySpace).reverse.dropWhile isPySpace).reverse

/-- Sentence-end punctuation for the lookbehind of the sentence split regex. -/
def isSentencePunct : Option Char → Bool
  | some '.' => true
  | some '!' => true
  | some '?' => true
  | _ => false

/-- Regex split with pattern: lookbehind one of period, bang, question mark,
    then one or more whitespace characters. A whitespace run directly after
    sentence punctuation separates segments and is dropped; the machine
    tracks the previous character and whether it is inside such a run. -/
def splitRawAux : Str → Option Char → Bool → Str → List Str
  | [], _, _, acc => [acc.reverse]
  | c :: rest, prev, inGap, acc =>
    if inGap && isPySpace c then
      splitRawAux rest (some c) true acc
    else if isPySpace c && isSentencePunct prev then
      acc.reverse :: splitRawAux rest (some c) true []
    else
      splitRawAux rest (some c) false (c :: acc)

/-- DocumentChunker sentence splitting: regex split, then strip each piece
    and keep the nonempty ones. -/
def split_sentences (text : Str) : List Str :=
  ((splitRawAux text none false []).map strip).filter (fun s => !s.isEmpty)

/-- Python str.find for a single character: index of the first occurrence. -/
def pyFind (c : Char) : Str → Option Nat
  | [] => none
  | x :: xs => if x = c then some 0 else (pyFind c xs).map (· + 1)

/-- DocumentChunker overlap extraction: the last chunk_overlap characters of
    a closed chunk, dropped to just after the first space when one occurs at
    a positive index. -/
def get_overlap_text (chunkOverlap : Nat) (text : Str) : Str :=
  if text.length ≤ chunkOverlap then text
  else
    match pyFind ' ' (text.drop (text.length - chunkOverlap)) with
    | some i =>
        if 0 < i then (text.drop (text.length - chunkOverlap)).drop (i + 1)
        else text.drop (text.length - chunkOverlap)
    | none => text.drop (text.length - chunkOverlap)

/-- Value stored in a metadata dictionary. -/
inductive MVal where
  | s (v : Str)
  | n (v : Nat)
deriving DecidableEq, Repr

abbrev Metadata := List (String × MVal)

/-- Python dict update as observed through key lookup: the new binding
    shadows any older one. -/
def metaInsert (m : Metadata) (k : String) (v : MVal) : Metadata :=
  (k, v) :: m

/-- document_id drawn from chunk metadata with default doc, rendered as in
    the chunk_id f-string. -/
def docIdOf (m : Metadata) : Str :=
  match m.lookup "document_id" with
  | some (.s v) => v
  | some (.n v) => (Nat.repr v).toList
  | none => "doc".toList

structure Chunk where
  chunk_id : Str
  text : Str
  start_index : Nat
  end_index : Nat
  metadata : Metadata
deriving DecidableEq, Repr

inductive ChunkErr where
  | noneMetadata
deriving DecidableEq, Repr

/-- Chunk record construction; a missing metadata dictionary makes the
    chunk_id construction fail, like metadata.get on None in the source. -/
def mkChunk (md : Option Metadata) (cid : Nat) (text : Str) (start : Nat) :
    Except ChunkErr Chunk :=
  match md with
  | none => .error .noneMetadata
  | some m =>
      .ok { chunk_id := docIdOf m ++ ('_' :: (Nat.repr cid).toList)
            text := text
            start_index := start
            end_index := start + text.length
            metadata := metaInsert m "chunk_index" (.n cid) }

instance {e a : Type} [DecidableEq e] [DecidableEq a] : DecidableEq (Except e a)
  | .error x, .error y =>
      match decEq x y with
      | isTrue h => isTrue (by rw [h])
      | isFalse h => isFalse (by intro hh; injection hh; contradiction)
  | .error _, .ok _ => isFalse (by intro h; cases h)
  | .ok _, .error _ => isFalse (by intro h; cases h)
  | .ok x, .ok y =>
      match decEq x y with
      | isTrue h => isTrue (by rw [h])
      | isFalse h => isFalse (by intro hh; injection hh; contradiction)

/-- Python join with a single space. -/
def joinSpace (parts : List Str) : Str := List.intercalate [' '] parts

structure ChunkState where
  chunks : List Chunk
  start : Nat
  chunkId : Nat
  currentChunk : List Str
  currentLength : Nat
deriving Repr

structure ChunkerCfg where
  chunk_size : Nat
  chunk_overlap : Nat
deriving Repr

/-- Loop body of DocumentChunker.chunk_text for one sentence: close the
    running chunk when the sentence would overflow chunk_size, seed the next
    buffer with the overlap tail, then append the sentence. -/
def chunkStep (cfg : ChunkerCfg) (md : Option Metadata) (st : ChunkState)
    (s : Str) : Except ChunkErr ChunkState :=
  if cfg.chunk_size < st.currentLength + s.length ∧ st.currentChunk ≠ [] then
    let ct := joinSpace st.currentChunk
    match mkChunk md st.chunkId ct st.start with
    | .error e => .error e
    | .ok ch =>
      let overlap := get_overlap_text cfg.chunk_overlap ct
      let seeded := if overlap.isEmpty then [] else [overlap]
      let seededLen := if overlap.isEmpty then 0 else overlap.length
      .ok { chunks := st.chunks ++ [ch]
            start := st.start + (ct.length - overlap.length)
            chunkId := st.chunkId + 1
            currentChunk := seeded ++ [s]
            currentLength := seededLen + s.length + 1 }
  else
    .ok { st with currentChunk := st.currentChunk ++ [s]
                  currentLength := st.currentLength + s.length + 1 }

/-- Fold of chunkStep over the sentence list, stopping at the first error. -/
def chunkLoop (cfg : ChunkerCfg) (md : Option Metadata) (st : ChunkState) :
    List Str → Except ChunkErr ChunkState
  | [] => .ok st
  | s :: rest =>
    match chunkStep cfg md st s with
    | .error e => .error e
    | .ok st' => chunkLoop cfg md st' rest

/-- DocumentChunker.chunk_text: sentence packing with overlap carry and a
    final flush; empty or whitespace-only input is a no-op. -/
def chunk_text (cfg : ChunkerCfg) (md : Option Metadata) (text : Str) :
    Except ChunkErr (List Chunk) :=
  if (strip text).isEmpty then .ok []
  else
    match chunkLoop cfg md ⟨[], 0, 0, [], 0⟩ (split_sentences text) with
    | .error e => .error e
    | .ok st =>
      if st.currentChunk.isEmpty then .ok st.chunks
      else
        match mkChunk md st.chunkId (joinSpace st.currentChunk) st.start with
        | .error e => .error e
        | .ok ch => .ok (st.chunks ++ [ch])

structure HitMeta where
  textVal : Option Str := none
  documentId : Option Str := none
deriving DecidableEq, Repr

structure Hit where
  id : Str
  score : ℚ
  metadata : HitMeta
deriving DecidableEq, Repr

structure ContextChunk where
  text : Str
  chunk_id : Str
  document_id : Str
  score : ℚ
  metadata : HitMeta
deriving DecidableEq, Repr

/-- Context chunk drawn from one retrieval hit (metadata reads use the empty
    string as default). -/
def toContextChunk (r : Hit) : ContextChunk :=
  { text := r.metadata.textVal.getD []
    chunk_id := r.id
    document_id := r.metadata.documentId.getD []
    score := r.score
    metadata := r.metadata }

structure Citation where
  document_id : Str
  chunk_id : Str
  text : Str
  confidence_score : ℚ
  metadata : HitMeta
deriving DecidableEq, Repr

/-- Citation built by the retrieval service: the text is cut to its first
    200 characters plus an ellipsis when strictly longer than 200. -/
def mkCitation (c : ContextChunk) : Citation :=
  { document_id := c.document_id
    chunk_id := c.chunk_id
    text := if 200 < c.text.length then c.text.take 200 ++ "...".toList else c.text
    confidence_score := c.score
    metadata := c.metadata }

def build_citations (chunks : List ContextChunk) : List Citation :=
  chunks.map mkCitation

/-- Python max over a list of scores, 0 for the empty list. -/
def pyMax : List ℚ → ℚ
  | [] => 0
  | x :: xs => xs.foldl max x

/-- Python sum divided by length, 0 for the empty list. -/
def pyAvg (l : List ℚ) : ℚ :=
  if l.isEmpty then 0 else l.sum / (l.length : ℚ)

/-- Hits kept as context after threshold filtering, with fallback to the
    first hit of the list when the filter removes everything. -/
def survivingHits (threshold : ℚ) (results : List Hit) : List Hit :=
  if (results.filter (fun r => decide (threshold ≤ r.score))).isEmpty then
    results.take 1
  else results.filter (fun r => decide (threshold ≤ r.score))

/-- Confidence value announced in the response: the maximum of all scores,
    overwritten by the first hit score on the fallback path. -/
def reportedMax (threshold : ℚ) (results : List Hit) : ℚ :=
  if (results.filter (fun r => decide (threshold ≤ r.score))).isEmpty then
    match results with
    | [] => 0
    | r :: _ => r.score
  else pyMax (results.map (·.score))

structure RetrievalMetadata where
  retrieval_count : Nat
  total_retrieved : Option Nat
  avg_confidence : Option ℚ
  max_confidence : Option ℚ
  threshold_used : Option ℚ
  attempt : Nat
deriving DecidableEq, Repr

structure Outcome where
  answer : Str
  citations : List Citation
  confidence_score : ℚ
  retrieval_metadata : RetrievalMetadata
deriving DecidableEq, Repr

/-- Immediate response for an empty hit list (0-based attempt index k,
    reported 1-based). -/
def zeroHitOutcome (k : Nat) : Outcome :=
  { answer := "I couldn\x27t find any relevant information to answer your question.".toList
    citations := []
    confidence_score := 0
    retrieval_metadata :=
      { retrieval_count := 0
        total_retrieved := none
        avg_confidence := none
        max_confidence := none
        threshold_used := none
        attempt := k + 1 } }

/-- Body of one try of retrieve_and_answer once the hits are back: zero-hit
    early return, confidence statistics, threshold filter with fallback,
    answer generation, citation assembly. -/
def attemptOnce {E : Type} (threshold : ℚ) (query : Str) (inc : Bool)
    (gen : Str → List ContextChunk → Bool → Except E Str)
    (results : List Hit) (k : Nat) : Except E Outcome :=
  match results with
  | [] => .ok (zeroHitOutcome k)
  | r :: rs =>
      let scores := (r :: rs).map (·.score)
      let survivors := survivingHits threshold (r :: rs)
      let maxC := reportedMax threshold (r :: rs)
      let ctx := survivors.map toContextChunk
      (gen query ctx inc).map fun ans =>
        { answer := ans
          citations := if inc then build_citations ctx else []
          confidence_score := maxC
          retrieval_metadata :=
            { retrieval_count := survivors.length
              total_retrieved := some (r :: rs).length
              avg_confidence := some (pyAvg scores)
              max_confidence := some maxC
              threshold_used := some threshold
              attempt := k + 1 } }

inductive RetryErr (E : Type) where
  | attemptFailed (e : E)
  | maxRetriesExceeded
deriving DecidableEq, Repr

structure RetryTrace (E A : Type) where
  attemptsMade : Nat
  delays : List Nat
  result : Except (RetryErr E) A

/-- Retry loop with exponential backoff: after a failed attempt k the loop
    sleeps two to the k, except on the last attempt, which re-raises; the
    trace records attempts made, sleeps taken and the final result. -/
def retryGo {E A : Type} (att : Nat → Except E A) (k : Nat) :
    Nat → RetryTrace E A
  | 0 => ⟨0, [], .error .maxRetriesExceeded⟩
  | fuel + 1 =>
    match att k with
    | .ok a => ⟨1, [], .ok a⟩
    | .error e =>
      if fuel = 0 then ⟨1, [], .error (.attemptFailed e)⟩
      else
        let t := retryGo att (k + 1) fuel
        ⟨t.attemptsMade + 1, 2 ^ k :: t.delays, t.result⟩

def retryLoop {E A : Type} (maxRetries : Nat) (att : Nat → Except E A) :
    RetryTrace E A :=
  retryGo att 0 maxRetries

/-- Python or-expression on the optional threshold argument: None and 0.0
    are falsy and select the configured default. -/
def resolveThreshold (ct : Option ℚ) (dflt : ℚ) : ℚ :=
  match ct with
  | some v => if v = 0 then dflt else v
  | none => dflt

/-- Python or-expression on the optional top_k argument: None and 0 are
    falsy and select the configured default. -/
def resolveTopK (tk : Option Int) (dflt : Int) : Int :=
  match tk with
  | some v => if v = 0 then dflt else v
  | none => dflt

/-- RetrievalService.retrieve_and_answer: resolve overrides, then retry the
    embed-query-answer attempt with backoff. fetch bundles the fallible
    embedding plus vector-store calls for a given effective top_k and
    attempt index; gen is the fallible answer generation call. -/
def retrieve_and_answer {E : Type} (maxRetries : Nat) (defaultTopK : Int)
    (defaultThreshold : ℚ) (query : Str) (topK : Option Int) (ct : Option ℚ)
    (inc : Bool) (fetch : Int → Nat → Except E (List Hit))
    (gen : Str → List ContextChunk → Bool → Except E Str) :
    RetryTrace E Outcome :=
  let threshold := resolveThreshold ct defaultThreshold
  let tk := resolveTopK topK defaultTopK
  retryLoop maxRetries fun k =>
    match fetch tk k with
    | .error e => .error e
    | .ok results => attemptOnce threshold query inc gen results k

/-- Defaults from the application Settings in app config. -/
structure Settings where
  chunk_size : Nat := 1000
  chunk_overlap : Nat := 200
  retrieval_top_k : Int := 5
  confidence_threshold : ℚ := 7/10
  max_retries : Nat := 3

def settings : Settings := {}

/-- Boundary check for a carried overlap tail: the tail is the whole closed
    chunk, or starts with a space, or is the character suffix preceded by a
    space inside the closed chunk. -/
def startsAtWordBoundaryB (text tl : Str) : Bool :=
  tl == text || tl.head? == some ' ' ||
    (text.drop (text.length - tl.length) == tl &&
      text.get? (text.length - tl.length - 1) == some ' ')

/- Helper lemmas about the embedded string and list operations. -/

theorem strip_eq_nil_iff (l : Str) : strip l = [] ↔ ∀ c ∈ l, isPySpace c = true := by
  unfold strip
  rw [List.reverse_eq_nil_iff, List.dropWhile_eq_nil_iff]
  constructor
  · intro h c hc
    have hsplit := List.takeWhile_append_dropWhile isPySpace l
    rw [← hsplit] at hc
    rcases List.mem_append.mp hc with htk | hdr
    · exact List.mem_takeWhile_imp htk
    · exact h c (List.mem_reverse.mpr hdr)
  · intro h c hc
    have : List.dropWhile isPySpace l = [] :=
      List.dropWhile_eq_nil_iff.mpr (fun x hx => h x hx)
    rw [this] at hc
    simp at hc

theorem strip_ne_nil_of_mem (l : Str) (c : Char) (hc : c ∈ l)
    (hs : isPySpace c = false) : strip l ≠ [] := by
  intro h
  have := (strip_eq_nil_iff l).mp h c hc
  rw [hs] at this
  exact Bool.false_ne_true this

theorem splitRawAux_covers :
    ∀ (t : Str) (prev : Option Char) (inGap : Bool) (acc : Str) (c : Char),
      (c ∈ t ∨ c ∈ acc) → isPySpace c = false →
      ∃ seg ∈ splitRawAux t prev inGap acc, c ∈ seg := by
  intro t
  induction t with
  | nil =>
      intro prev inGap acc c hc hsp
      rcases hc with hc | hc
      · simp at hc
      · exact ⟨acc.reverse, by simp [splitRawAux], List.mem_reverse.mpr hc⟩
  | cons x rest ih =>
      intro prev inGap acc c hc hsp
      have hcx : c ∈ rest ∨ c ∈ acc ∨ c = x := by
        rcases hc with hc | hc
        · rcases List.mem_cons.mp hc with rfl | hc
          · exact Or.inr (Or.inr rfl)
          · exact Or.inl hc
        · exact Or.inr (Or.inl hc)
      simp only [splitRawAux]
      by_cases h1 : (inGap && isPySpace x) = true
      · rw [if_pos h1]
        have h1b := h1
        rw [Bool.and_eq_true] at h1b
        have hcx2 : c ∈ rest ∨ c ∈ acc := by
          rcases hcx with h | h | rfl
          · exact Or.inl h
          · exact Or.inr h
          · rw [h1b.2] at hsp; simp at hsp
        exact ih (some x) true acc c hcx2 hsp
      · rw [if_neg h1]
        by_cases h2 : (isPySpace x && isSentencePunct prev) = true
        · rw [if_pos h2]
          have h2b := h2
          rw [Bool.and_eq_true] at h2b
          rcases hcx with h | h | rfl
          · obtain ⟨seg, hseg, hcseg⟩ := ih (some x) true [] c (Or.inl h) hsp
            exact ⟨seg, List.mem_cons_of_mem _ hseg, hcseg⟩
          · exact ⟨acc.reverse, List.mem_cons_self _ _, List.mem_reverse.mpr h⟩
          · rw [h2b.1] at hsp; simp at hsp
        · rw [if_neg h2]
          have hcx2 : c ∈ rest ∨ c ∈ x :: acc := by
            rcases hcx with h | h | rfl
            · exact Or.inl h
            · exact Or.inr (List.mem_cons_of_mem _ h)
            · exact Or.inr (List.mem_cons_self _ _)
          exact ih (some x) false (x :: acc) c hcx2 hsp

theorem split_sentences_ne_nil (text : Str) (h : strip text ≠ []) :
    split_sentences text ≠ [] := by
  have hex : ∃ c ∈ text, isPySpace c = false := by
    by_contra hall
    push_neg at hall
    exact h ((strip_eq_nil_iff text).mpr fun c hc => by
      have := hall c hc
      cases hb : isPySpace c
      · exact absurd hb this
      · rfl)
  obtain ⟨c, hc, hsp⟩ := hex
  obtain ⟨seg, hseg, hcseg⟩ := splitRawAux_covers text none false [] c (Or.inl hc) hsp
  have hne : strip seg ≠ [] := strip_ne_nil_of_mem seg c hcseg hsp
  apply List.ne_nil_of_mem (a := strip seg)
  rw [split_sentences, List.mem_filter]
  refine ⟨List.mem_map_of_mem strip hseg, ?_⟩
  simp [List.isEmpty_iff, hne]

theorem split_sentences_mem_ne_nil (text s : Str) (hs : s ∈ split_sentences text) :
    s ≠ [] := by
  rw [split_sentences, List.mem_filter] at hs
  simpa [List.isEmpty_iff] using hs.2

theorem joinSpace_ne_nil (parts : List Str) (hne : parts ≠ [])
    (hall : ∀ p ∈ parts, p ≠ []) : joinSpace parts ≠ [] := by
  match parts with
  | [] => exact absurd rfl hne
  | [p] =>
      simpa [joinSpace, List.intercalate, List.intersperse] using
        hall p (List.mem_cons_self p [])
  | p :: q :: t =>
      have hp : p ≠ [] := hall p (List.mem_cons_self p _)
      simp only [joinSpace, List.intercalate, List.intersperse, List.flatten]
      intro h
      rw [List.append_eq_nil] at h
      exact hp h.1

theorem pyFind_spec (c : Char) :
    ∀ (l : Str) (i : Nat), pyFind c l = some i →
      ∃ h : i < l.length, l.get ⟨i, h⟩ = c := by
  intro l
  induction l with
  | nil => intro i h; simp [pyFind] at h
  | cons x xs ih =>
      intro i h
      by_cases hx : x = c
      · rw [pyFind, if_pos hx] at h
        cases h
        exact ⟨Nat.succ_pos _, hx⟩
      · rw [pyFind, if_neg hx] at h
        rw [Option.map_eq_some'] at h
        obtain ⟨j, hj, rfl⟩ := h
        obtain ⟨hlt, hget⟩ := ih j hj
        exact ⟨Nat.succ_lt_succ hlt, hget⟩

theorem foldl_max_const (x : ℚ) (l : List ℚ) (h : ∀ y ∈ l, y ≤ x) :
    l.foldl max x = x := by
  induction l with
  | nil => rfl
  | cons a t ih =>
      rw [List.foldl_cons, max_eq_left (h a (List.mem_cons_self a t))]
      exact ih fun y hy => h y (List.mem_cons_of_mem a hy)

theorem pyMax_cons_of_head_max (x : ℚ) (t : List ℚ) (h : ∀ y ∈ t, y ≤ x) :
    pyMax (x :: t) = x :=
  foldl_max_const x t h

theorem get?_append_singleton {α : Type} (l : List α) (x : α) (i : Nat) (y : α)
    (h : (l ++ [x]).get? i = some y) :
    (l.get? i = some y ∧ i < l.length) ∨ (i = l.length ∧ y = x) := by
  rcases lt_trichotomy i l.length with hlt | heq | hgt
  · rw [List.get?_append hlt] at h
    exact Or.inl ⟨h, hlt⟩
  · subst heq
    rw [List.get?_concat_length] at h
    cases h
    exact Or.inr ⟨rfl, rfl⟩
  · exfalso
    have : (l ++ [x]).get? i = none := by
      rw [List.get?_eq_none, List.length_append]
      simpa using hgt
    rw [this] at h
    cases h

/- Lemmas about the chunking loop. -/

theorem chunkStep_currentChunk (cfg : ChunkerCfg) (md : Option Metadata)
    (st : ChunkState) (s : Str) (st' : ChunkState)
    (h : chunkStep cfg md st s = .ok st') :
    ∃ pre, st'.currentChunk = pre ++ [s] := by
  unfold chunkStep at h
  split at h
  · cases md with
    | none => simp [mkChunk] at h
    | some m =>
        simp only [mkChunk] at h
        cases h
        exact ⟨_, rfl⟩
  · cases h
    exact ⟨st.currentChunk, rfl⟩

theorem chunkLoop_currentChunk_ne_nil (cfg : ChunkerCfg) (md : Option Metadata) :
    ∀ (l : List Str) (st0 st1 : ChunkState), l ≠ [] →
      chunkLoop cfg md st0 l = .ok st1 → st1.currentChunk ≠ [] := by
  intro l
  induction l with
  | nil => intro st0 st1 hne; exact absurd rfl hne
  | cons s rest ih =>
      intro st0 st1 _ h
      simp only [chunkLoop] at h
      cases hs : chunkStep cfg md st0 s with
      | error e => simp [hs] at h
      | ok st' =>
          simp only [hs] at h
          by_cases hr : rest = []
          · subst hr
            simp only [chunkLoop] at h
            obtain ⟨pre, hpre⟩ := chunkStep_currentChunk cfg md st0 s st' hs
            injection h with h2
            rw [← h2, hpre]
            simp
          · exact ih st' st1 hr h

theorem chunkLoop_inv (cfg : ChunkerCfg) (md : Option Metadata)
    (P : ChunkState → Prop) (A : Str → Prop)
    (hstep : ∀ st s st', A s → chunkStep cfg md st s = .ok st' → P st → P st') :
    ∀ (l : List Str) (st0 st1 : ChunkState), (∀ s ∈ l, A s) →
      chunkLoop cfg md st0 l = .ok st1 → P st0 → P st1 := by
  intro l
  induction l with
  | nil =>
      intro st0 st1 _ h hp
      simp only [chunkLoop] at h
      cases h
      exact hp
  | cons s rest ih =>
      intro st0 st1 ha h hp
      simp only [chunkLoop] at h
      cases hs : chunkStep cfg md st0 s with
      | error e => simp [hs] at h
      | ok st' =>
          simp only [hs] at h
          exact ih st' st1 (fun x hx => ha x (List.mem_cons_of_mem s hx)) h
            (hstep st0 s st' (ha s (List.mem_cons_self s rest)) hs hp)

theorem chunkStep_some_ok (cfg : ChunkerCfg) (m : Metadata) (st : ChunkState)
    (s : Str) : ∃ st', chunkStep cfg (some m) st s = .ok st' := by
  unfold chunkStep
  split
  · simp only [mkChunk]
    exact ⟨_, rfl⟩
  · exact ⟨_, rfl⟩

theorem chunkLoop_some_ok (cfg : ChunkerCfg) (m : Metadata) :
    ∀ (l : List Str) (st0 : ChunkState),
      ∃ st1, chunkLoop cfg (some m) st0 l = .ok st1 := by
  intro l
  induction l with
  | nil => intro st0; exact ⟨st0, rfl⟩
  | cons s rest ih =>
      intro st0
      obtain ⟨st', hst'⟩ := chunkStep_some_ok cfg m st0 s
      obtain ⟨st1, hst1⟩ := ih st'
      exact ⟨st1, by simp only [chunkLoop, hst']; exact hst1⟩

theorem metaInsert_lookup_self (m : Metadata) (k : String) (v : MVal) :
    (metaInsert m k v).lookup k = some v := by
  simp [metaInsert, List.lookup]

theorem metaInsert_lookup_other (m : Metadata) (k k' : String) (v : MVal)
    (h : k' ≠ k) : (metaInsert m k v).lookup k' = m.lookup k' := by
  simp [metaInsert, List.lookup, beq_eq_false_iff_ne.mpr h]

/-- Offset invariant carried through the chunking loop. -/
def IndexInv (st : ChunkState) : Prop :=
  (∀ ch ∈ st.chunks, ch.start_index ≤ ch.end_index) ∧
  List.Pairwise (fun a b => a.start_index ≤ b.start_index) st.chunks ∧
  (∀ ch ∈ st.chunks, ch.start_index ≤ st.start)

theorem chunkStep_indexInv (cfg : ChunkerCfg) (md : Option Metadata)
    (st : ChunkState) (s : Str) (st' : ChunkState)
    (h : chunkStep cfg md st s = .ok st') (hinv : IndexInv st) : IndexInv st' := by
  obtain ⟨h1, h2, h3⟩ := hinv
  unfold chunkStep at h
  split at h
  · cases md with
    | none => simp [mkChunk] at h
    | some m =>
        simp only [mkChunk] at h
        cases h
        refine ⟨?_, ?_, ?_⟩
        · intro ch hch
          rcases List.mem_append.mp hch with hold | hnew
          · exact h1 ch hold
          · rw [List.mem_singleton.mp hnew]
            exact Nat.le_add_right _ _
        · rw [List.pairwise_append]
          refine ⟨h2, List.pairwise_singleton _ _, ?_⟩
          intro a ha b hb
          rw [List.mem_singleton.mp hb]
          exact h3 a ha
        · intro ch hch
          rcases List.mem_append.mp hch with hold | hnew
          · exact Nat.le_trans (h3 ch hold) (Nat.le_add_right _ _)
          · rw [List.mem_singleton.mp hnew]
            exact Nat.le_add_right _ _
  · cases h
    exact ⟨h1, h2, h3⟩

/-- Wellformedness of an emitted chunk relative to the caller metadata and
    its position in the output. -/
def ChunkOk (m : Metadata) (i : Nat) (ch : Chunk) : Prop :=
  ch.text ≠ [] ∧
  ch.metadata.lookup "chunk_index" = some (.n i) ∧
  ∀ k : String, k ≠ "chunk_index" → ch.metadata.lookup k = m.lookup k

/-- Output wellformedness invariant carried through the chunking loop. -/
def ChunkOkInv (m : Metadata) (st : ChunkState) : Prop :=
  st.chunks.length = st.chunkId ∧
  (∀ i ch, st.chunks.get? i = some ch → ChunkOk m i ch) ∧
  (∀ s ∈ st.currentChunk, s ≠ [])

theorem mkChunk_some_chunkOk (m : Metadata) (cid : Nat) (t : Str) (start : Nat)
    (ch : Chunk) (h : mkChunk (some m) cid t start = .ok ch) (ht : t ≠ []) :
    ChunkOk m cid ch := by
  simp only [mkChunk] at h
  cases h
  refine ⟨ht, metaInsert_lookup_self m _ _, ?_⟩
  intro k hk
  exact metaInsert_lookup_other m _ k _ hk

theorem chunkStep_chunkOkInv (cfg : ChunkerCfg) (m : Metadata)
    (st : ChunkState) (s : Str) (st' : ChunkState) (hs : s ≠ [])
    (h : chunkStep cfg (some m) st s = .ok st') (hinv : ChunkOkInv m st) :
    ChunkOkInv m st' := by
  obtain ⟨h1, h2, h3⟩ := hinv
  unfold chunkStep at h
  split at h
  · rename_i hcond
    have hct : joinSpace st.currentChunk ≠ [] :=
      joinSpace_ne_nil st.currentChunk hcond.2 h3
    have hok : ChunkOk m st.chunkId
        { chunk_id := docIdOf m ++ ('_' :: (Nat.repr st.chunkId).toList)
          text := joinSpace st.currentChunk
          start_index := st.start
          end_index := st.start + (joinSpace st.currentChunk).length
          metadata := metaInsert m "chunk_index" (.n st.chunkId) } :=
      mkChunk_some_chunkOk m st.chunkId (joinSpace st.currentChunk) st.start _
        (by simp [mkChunk]) hct
    simp only [mkChunk] at h
    cases h
    refine ⟨?_, ?_, ?_⟩
    · simp [h1]
    · intro i ch hch
      rcases get?_append_singleton _ _ _ _ hch with ⟨hold, _⟩ | ⟨hi, hx⟩
      · exact h2 i ch hold
      · rw [hi, hx, h1]
        exact hok
    · intro x hx
      rcases List.mem_append.mp hx with hseed | hlast
      · split at hseed
        · simp at hseed
        · rename_i hov
          rw [List.mem_singleton.mp hseed]
          intro hnil
          rw [hnil] at hov
          simp at hov
      · rw [List.mem_singleton.mp hlast]
        exact hs
  · cases h
    refine ⟨h1, h2, ?_⟩
    intro x hx
    rcases List.mem_append.mp hx with hold | hlast
    · exact h3 x hold
    · rw [List.mem_singleton.mp hlast]
      exact hs

/- Lemmas about the retrieval side. -/

theorem reportedMax_eq_pyMax (threshold : ℚ) (r : Hit) (rs : List Hit)
    (hsorted : ∀ x ∈ rs, x.score ≤ r.score) :
    reportedMax threshold (r :: rs) = pyMax ((r :: rs).map (·.score)) := by
  have hmax : pyMax ((r :: rs).map (·.score)) = r.score := by
    rw [List.map_cons]
    apply pyMax_cons_of_head_max
    intro y hy
    obtain ⟨x, hx, rfl⟩ := List.mem_map.mp hy
    exact hsorted x hx
  unfold reportedMax
  split
  · exact hmax.symm
  · rfl

theorem range_pow_shift (k g : Nat) :
    (List.range (g + 1)).map (fun j => 2 ^ (k + j)) =
      2 ^ k :: (List.range g).map (fun j => 2 ^ (k + 1 + j)) := by
  rw [List.range_succ_eq_map, List.map_cons, List.map_map]
  refine congrArg₂ _ (by simp) ?_
  apply List.map_congr_left
  intro a _
  show 2 ^ (k + (a + 1)) = 2 ^ (k + 1 + a)
  congr 1
  omega

theorem retryGo_all_fail {E A : Type} (att : Nat → Except E A) (err : Nat → E)
    (hfail : ∀ k, att k = .error (err k)) :
    ∀ (f k : Nat),
      retryGo att k (f + 1) =
        ⟨f + 1, (List.range f).map (fun j => 2 ^ (k + j)),
         .error (.attemptFailed (err (k + f)))⟩ := by
  intro f
  induction f with
  | zero =>
      intro k
      simp [retryGo, hfail k]
  | succ g ih =>
      intro k
      rw [retryGo.eq_def]
      simp only [hfail k]
      rw [if_neg (Nat.succ_ne_zero g)]
      rw [ih (k + 1)]
      rw [range_pow_shift k g]
      have hidx : k + 1 + g = k + (g + 1) := by omega
      rw [hidx]

theorem retryGo_first_success {E A : Type} (att : Nat → Except E A) :
    ∀ (fuel k j : Nat) (a : A), j < fuel → att (k + j) = .ok a →
      (∀ i, i < j → ∃ e, att (k + i) = .error e) →
      retryGo att k fuel =
        ⟨j + 1, (List.range j).map (fun i => 2 ^ (k + i)), .ok a⟩ := by
  intro fuel
  induction fuel with
  | zero => intro k j a hj; omega
  | succ f ih =>
      intro k j a hj hok hprev
      cases j with
      | zero =>
          rw [Nat.add_zero] at hok
          simp only [retryGo, hok]
          simp
      | succ j' =>
          obtain ⟨e, he⟩ := hprev 0 (Nat.succ_pos j')
          rw [Nat.add_zero] at he
          simp only [retryGo, he]
          have hf : f ≠ 0 := by omega
          rw [if_neg hf]
          have hok' : att (k + 1 + j') = .ok a := by
            rw [← hok]; congr 1; omega
          have hprev' : ∀ i, i < j' → ∃ e', att (k + 1 + i) = .error e' := by
            intro i hi
            obtain ⟨e', he'⟩ := hprev (i + 1) (by omega)
            exact ⟨e', by rw [← he']; congr 1; omega⟩
          rw [ih (k + 1) j' a (by omega) hok' hprev']
          rw [range_pow_shift k j']

theorem retryGo_result_ok {E A : Type} (att : Nat → Except E A) :
    ∀ (fuel k : Nat) (a : A), (retryGo att k fuel).result = .ok a →
      ∃ j, att j = .ok a := by
  intro fuel
  induction fuel with
  | zero => intro k a h; simp [retryGo] at h
  | succ f ih =>
      intro k a h
      cases hk : att k with
      | ok b =>
          simp only [retryGo, hk] at h
          cases h
          exact ⟨k, hk⟩
      | error e =>
          simp only [retryGo, hk] at h
          by_cases hf : f = 0
          · rw [if_pos hf] at h
            simp at h
          · rw [if_neg hf] at h
            exact ih (k + 1) a h

theorem attemptOnce_ok_threshold {E : Type} (threshold : ℚ) (q : Str)
    (inc : Bool) (gen : Str → List ContextChunk → Bool → Except E Str)
    (results : List Hit) (k : Nat) (out : Outcome)
    (h : attemptOnce threshold q inc gen results k = .ok out) :
    out.retrieval_metadata.threshold_used = none ∨
    out.retrieval_metadata.threshold_used = some threshold := by
  cases results with
  | nil =>
      simp only [attemptOnce] at h
      cases h
      exact Or.inl rfl
  | cons r rs =>
      simp only [attemptOnce] at h
      cases hg : gen q ((survivingHits threshold (r :: rs)).map toContextChunk) inc with
      | error e => rw [hg] at h; simp [Except.map] at h
      | ok ans =>
          rw [hg] at h
          simp only [Except.map, Except.ok.injEq] at h
          rw [← h]
          exact Or.inr rfl

theorem overlap_tail_length_le (co : Nat) (text : Str) :
    (get_overlap_text co text).length ≤ co := by
  unfold get_overlap_text
  split
  · assumption
  · rename_i hlen
    split
    · split
      · rw [List.length_drop, List.length_drop]
        omega
      · rw [List.length_drop]
        omega
    · rw [List.length_drop]
      omega

theorem overlap_tail_boundary (co : Nat) (text : Str) (i : Nat)
    (hco : co < text.length)
    (hfind : pyFind ' ' (text.drop (text.length - co)) = some i) (hpos : 0 < i) :
    startsAtWordBoundaryB text (get_overlap_text co text) = true := by
  obtain ⟨hilt, hg⟩ := pyFind_spec ' ' (text.drop (text.length - co)) i hfind
  have hoverlen : (text.drop (text.length - co)).length = co := by
    rw [List.length_drop]
    omega
  have hico : i < co := by rw [hoverlen] at hilt; exact hilt
  have hover : get_overlap_text co text =
      (text.drop (text.length - co)).drop (i + 1) := by
    unfold get_overlap_text
    rw [if_neg (by omega)]
    simp only [hfind]
    rw [if_pos hpos]
  have htl : (get_overlap_text co text).length = co - (i + 1) := by
    rw [hover, List.length_drop, hoverlen]
  have hsuffix : get_overlap_text co text =
      text.drop (text.length - (co - (i + 1))) := by
    rw [hover, List.drop_drop]
    congr 1
    omega
  have hgetq : text.get? (text.length - (co - (i + 1)) - 1) = some ' ' := by
    have h1 : (text.drop (text.length - co)).get? i = some ' ' := by
      rw [List.get?_eq_some]
      exact ⟨hilt, hg⟩
    rw [List.get?_drop] at h1
    rw [show text.length - (co - (i + 1)) - 1 = text.length - co + i from by omega]
    exact h1
  unfold startsAtWordBoundaryB
  rw [htl]
  simp only [Bool.or_eq_true, Bool.and_eq_true, beq_iff_eq]
  right
  exact ⟨hsuffix.symm, hgetq⟩

/-- C5 counterexample: on the text abcdefgh. xyz. with chunk_size 10 and
    chunk_overlap 4, chunk_text emits two consecutive chunks whose carried
    overlap tail fgh. is the raw 4-character suffix of the closed chunk
    abcdefgh. and starts in the middle of a word, refuting the word-boundary
    part of the claim (the last 4 characters contain no space, so no leading
    word fragment is discarded). -/
theorem C5_counterexample :
    chunk_text ⟨10, 4⟩ (some []) ("abcdefgh. xyz.".toList) = .ok
      [⟨"doc_0".toList, "abcdefgh.".toList, 0, 9, [("chunk_index", MVal.n 0)]⟩,
       ⟨"doc_1".toList, "fgh. xyz.".toList, 5, 14, [("chunk_index", MVal.n 1)]⟩] ∧
    get_overlap_text 4 ("abcdefgh.".toList) = "fgh.".toList ∧
    startsAtWordBoundaryB ("abcdefgh.".toList)
      (get_overlap_text 4 ("abcdefgh.".toList)) = false :=
  ⟨by decide, by decide, by decide⟩

/-- C5 (amended): the overlap tail carried from a closed chunk into the next
    chunk, computed by get_overlap_text, always has length at most
    chunk_overlap; it begins at a word boundary whenever the last
    chunk_overlap characters of the closed chunk contain a space at a
    positive index, while a tail without such a space is carried verbatim
    and may begin inside a word. -/
theorem C5_overlap_tail_amended (co : Nat) (text : Str) :
    (get_overlap_text co text).length ≤ co ∧
    (∀ i : Nat, co < text.length →
      pyFind ' ' (text.drop (text.length - co)) = some i → 0 < i →
      startsAtWordBoundaryB text (get_overlap_text co text) = true) :=
  ⟨overlap_tail_length_le co text, fun i hco hfind hpos =>
    overlap_tail_boundary co text i hco hfind hpos⟩

/-- C5 witness: on the text abc d ef. with chunk_overlap 5, the last 5
    characters contain a space at index 1, so the amended theorem yields a
    word-boundary overlap tail of length at most 5. -/
theorem C5_witness :
    (get_overlap_text 5 ("abc d ef.".toList)).length ≤ 5 ∧
    startsAtWordBoundaryB ("abc d ef.".toList)
      (get_overlap_text 5 ("abc d ef.".toList)) = true :=
  ⟨(C5_overlap_tail_amended 5 ("abc d ef.".toList)).1,
   (C5_overlap_tail_amended 5 ("abc d ef.".toList)).2 1 (by decide) (by decide)
     (by decide)⟩

/-- C6 counterexample: with chunk_size 10 and chunk_overlap 8, the closed
    chunk Hi. is at most chunk_overlap characters long, so the whole chunk
    is carried as overlap and the next chunk starts at the same offset:
    start_index does not strictly increase between the two chunks. -/
theorem C6_counterexample :
    chunk_text ⟨10, 8⟩ (some []) ("Hi. abcdefghijklmno.".toList) = .ok
      [⟨"doc_0".toList, "Hi.".toList, 0, 3, [("chunk_index", MVal.n 0)]⟩,
       ⟨"doc_1".toList, "Hi. abcdefghijklmno.".toList, 0, 20,
        [("chunk_index", MVal.n 1)]⟩] ∧
    ¬ (0 : Nat) < (0 : Nat) :=
  ⟨by decide, by decide⟩

/-- C6 (amended): in every chunk sequence returned by chunk_text, each chunk
    satisfies start_index at most end_index, and start_index is
    non-decreasing across the sequence (consecutive chunks can repeat the
    same start_index when an entire closed chunk is carried as overlap). -/
theorem C6_offsets_amended (cfg : ChunkerCfg) (md : Option Metadata)
    (text : Str) (chunks : List Chunk)
    (h : chunk_text cfg md text = .ok chunks) :
    (∀ ch ∈ chunks, ch.start_index ≤ ch.end_index) ∧
    List.Pairwise (fun a b => a.start_index ≤ b.start_index) chunks := by
  unfold chunk_text at h
  split at h
  · cases h
    exact ⟨by simp, List.Pairwise.nil⟩
  · cases hl : chunkLoop cfg md ⟨[], 0, 0, [], 0⟩ (split_sentences text) with
    | error e => simp [hl] at h
    | ok st =>
        simp only [hl] at h
        have hinv : IndexInv st :=
          chunkLoop_inv cfg md IndexInv (fun _ => True)
            (fun st1 s st2 _ hs hp => chunkStep_indexInv cfg md st1 s st2 hs hp)
            (split_sentences text) ⟨[], 0, 0, [], 0⟩ st (fun _ _ => trivial) hl
            ⟨by simp, List.Pairwise.nil, by simp⟩
        obtain ⟨h1, h2, h3⟩ := hinv
        split at h
        · cases h
          exact ⟨h1, h2⟩
        · cases hmk : mkChunk md st.chunkId (joinSpace st.currentChunk) st.start with
          | error e => simp [hmk] at h
          | ok ch =>
              simp only [hmk] at h
              cases h
              have hch : ch.start_index = st.start ∧ ch.start_index ≤ ch.end_index := by
                cases md with
                | none => simp [mkChunk] at hmk
                | some m =>
                    simp only [mkChunk] at hmk
                    cases hmk
                    exact ⟨rfl, Nat.le_add_right _ _⟩
              refine ⟨?_, ?_⟩
              · intro c hc
                rcases List.mem_append.mp hc with hold | hnew
                · exact h1 c hold
                · rw [List.mem_singleton.mp hnew]
                  exact hch.2
              · rw [List.pairwise_append]
                refine ⟨h2, by simp, ?_⟩
                intro a ha b hb
                rw [List.mem_singleton.mp hb, hch.1]
                exact h3 a ha

/-- C6 witness: the amended theorem applied to a concrete run of chunk_text
    producing one chunk. -/
theorem C6_witness :
    (∀ ch ∈ [(⟨"doc_0".toList, "Hi.".toList, 0, 3,
        [("chunk_index", MVal.n 0)]⟩ : Chunk)], ch.start_index ≤ ch.end_index) ∧
    List.Pairwise (fun a b : Chunk => a.start_index ≤ b.start_index)
      [⟨"doc_0".toList, "Hi.".toList, 0, 3, [("chunk_index", MVal.n 0)]⟩] :=
  C6_offsets_amended ⟨10, 4⟩ (some []) ("Hi.".toList)
    [⟨"doc_0".toList, "Hi.".toList, 0, 3, [("chunk_index", MVal.n 0)]⟩] (by decide)

/-- C7: chunk_text returns the empty sequence exactly for empty or
    whitespace-only text, and for any other text (with a metadata map
    supplied) it succeeds with at least one chunk, every chunk text
    nonempty, and every chunk metadata equal to the caller metadata merged
    with a chunk_index field holding the chunk position. -/
theorem C7_chunk_output_guarantees (cfg : ChunkerCfg) (m : Metadata)
    (text : Str) :
    (strip text = [] → chunk_text cfg (some m) text = .ok []) ∧
    (strip text ≠ [] → ∃ chunks, chunk_text cfg (some m) text = .ok chunks ∧
      chunks ≠ [] ∧ ∀ i ch, chunks.get? i = some ch → ChunkOk m i ch) := by
  constructor
  · intro h
    unfold chunk_text
    rw [if_pos (by simpa [List.isEmpty_iff] using h)]
  · intro h
    obtain ⟨st, hl⟩ := chunkLoop_some_ok cfg m (split_sentences text) ⟨[], 0, 0, [], 0⟩
    have hinv : ChunkOkInv m st :=
      chunkLoop_inv cfg (some m) (ChunkOkInv m) (fun s => s ≠ [])
        (fun st1 s st2 ha hs hp => chunkStep_chunkOkInv cfg m st1 s st2 ha hs hp)
        (split_sentences text) ⟨[], 0, 0, [], 0⟩ st
        (fun s hs => split_sentences_mem_ne_nil text s hs) hl
        ⟨rfl, by intro i ch hch; simp at hch, by simp⟩
    have hcur : st.currentChunk ≠ [] :=
      chunkLoop_currentChunk_ne_nil cfg (some m) (split_sentences text)
        ⟨[], 0, 0, [], 0⟩ st (split_sentences_ne_nil text h) hl
    obtain ⟨hlen, hok, hcc⟩ := hinv
    have hct : joinSpace st.currentChunk ≠ [] := joinSpace_ne_nil _ hcur hcc
    refine ⟨st.chunks ++ [⟨docIdOf m ++ ('_' :: (Nat.repr st.chunkId).toList),
        joinSpace st.currentChunk, st.start,
        st.start + (joinSpace st.currentChunk).length,
        metaInsert m "chunk_index" (.n st.chunkId)⟩], ?_, by simp, ?_⟩
    · unfold chunk_text
      rw [if_neg (by simpa [List.isEmpty_iff] using h)]
      simp only [hl]
      rw [if_neg (by simpa [List.isEmpty_iff] using hcur)]
      simp [mkChunk]
    · intro i ch hch
      rcases get?_append_singleton _ _ _ _ hch with ⟨hold, _⟩ | ⟨hi, hx⟩
      · exact hok i ch hold
      · rw [hi, hx, hlen]
        exact mkChunk_some_chunkOk m st.chunkId (joinSpace st.currentChunk)
          st.start _ (by simp [mkChunk]) hct

/-- C7 witness: the theorem applied to the one-sentence text Hi. with empty
    caller metadata, from which the result cannot be the empty chunk list. -/
theorem C7_witness :
    chunk_text ⟨10, 4⟩ (some []) ("Hi.".toList) ≠ .ok [] := by
  obtain ⟨chunks, hokk, hne, _⟩ :=
    (C7_chunk_output_guarantees ⟨10, 4⟩ [] ("Hi.".toList)).2 (by decide)
  intro hcontra
  rw [hokk] at hcontra
  injection hcontra with hc
  exact hne hc

/-- C10: calling chunk_text with a non-empty, non-whitespace text and no
    metadata map does not return a chunk sequence: the chunk-emission path
    dereferences the missing metadata to build the chunk_id and the call
    fails with the corresponding error. -/
theorem C10_none_metadata_error (cfg : ChunkerCfg) (text : Str)
    (h : strip text ≠ []) :
    chunk_text cfg none text = .error .noneMetadata := by
  unfold chunk_text
  rw [if_neg (by simpa [List.isEmpty_iff] using h)]
  cases hl : chunkLoop cfg none ⟨[], 0, 0, [], 0⟩ (split_sentences text) with
  | error e =>
      simp only [hl]
  | ok st =>
      simp only [hl]
      have hcur : st.currentChunk ≠ [] :=
        chunkLoop_currentChunk_ne_nil cfg none (split_sentences text)
          ⟨[], 0, 0, [], 0⟩ st (split_sentences_ne_nil text h) hl
      rw [if_neg (by simpa [List.isEmpty_iff] using hcur)]
      simp [mkChunk]

/-- C10 witness: the theorem applied to the concrete text Hi. -/
theorem C10_witness :
    chunk_text ⟨10, 4⟩ none ("Hi.".toList) = .error .noneMetadata :=
  C10_none_metadata_error ⟨10, 4⟩ ("Hi.".toList) (by decide)

/-- C1: when the vector store returns at least one hit sorted by descending
    score and no hit reaches the threshold, the surviving hit set used for
    context and citations is exactly the single highest-scoring hit, and a
    successful attempt still produces an answer built from that one hit. -/
theorem C1_fallback_keeps_single_top_hit {E : Type} (threshold : ℚ)
    (query : Str) (gen : Str → List ContextChunk → Bool → Except E Str)
    (r : Hit) (rs : List Hit) (k : Nat)
    (hsorted : List.Pairwise (fun a b => b.score ≤ a.score) (r :: rs))
    (hbelow : ∀ x ∈ r :: rs, x.score < threshold) :
    survivingHits threshold (r :: rs) = [r] ∧
    (∀ x ∈ r :: rs, x.score ≤ r.score) ∧
    (∀ out : Outcome, attemptOnce threshold query true gen (r :: rs) k = .ok out →
      out.citations = [mkCitation (toContextChunk r)] ∧
      out.retrieval_metadata.retrieval_count = 1) := by
  have hfilter : (r :: rs).filter (fun x => decide (threshold ≤ x.score)) = [] := by
    rw [List.filter_eq_nil_iff]
    intro x hx
    simp only [decide_eq_true_eq]
    exact not_le.mpr (hbelow x hx)
  have hsurv : survivingHits threshold (r :: rs) = [r] := by
    unfold survivingHits
    rw [hfilter]
    rfl
  refine ⟨hsurv, ?_, ?_⟩
  · intro x hx
    rcases List.mem_cons.mp hx with rfl | hx
    · exact le_refl _
    · exact (List.pairwise_cons.mp hsorted).1 x hx
  · intro out hout
    simp only [attemptOnce] at hout
    cases hg : gen query ((survivingHits threshold (r :: rs)).map toContextChunk) true with
    | error e => rw [hg] at hout; simp [Except.map] at hout
    | ok ans =>
        rw [hg] at hout
        simp only [Except.map, Except.ok.injEq] at hout
        rw [← hout]
        constructor
        · show (if true then build_citations
              ((survivingHits threshold (r :: rs)).map toContextChunk) else []) =
            [mkCitation (toContextChunk r)]
          rw [if_pos rfl, hsurv]
          rfl
        · show (survivingHits threshold (r :: rs)).length = 1
          rw [hsurv]
          rfl

/-- C1 witness: the spec example with scores 0.9, 0.4, 0.2 and threshold
    0.95 keeps exactly the top hit. -/
theorem C1_witness :
    survivingHits (mkRat 95 100)
      [⟨"a".toList, mkRat 9 10, ⟨none, none⟩⟩,
       ⟨"b".toList, mkRat 4 10, ⟨none, none⟩⟩,
       ⟨"c".toList, mkRat 2 10, ⟨none, none⟩⟩] =
      [⟨"a".toList, mkRat 9 10, ⟨none, none⟩⟩] :=
  (C1_fallback_keeps_single_top_hit (E := Unit) (mkRat 95 100) []
    (fun _ _ _ => .ok []) ⟨"a".toList, mkRat 9 10, ⟨none, none⟩⟩
    [⟨"b".toList, mkRat 4 10, ⟨none, none⟩⟩,
     ⟨"c".toList, mkRat 2 10, ⟨none, none⟩⟩] 0
    (by decide) (by decide)).1

/-- C2: for any successful attempt on a non-empty, descending-sorted hit
    list, the reported max_confidence and the outcome confidence_score both
    equal the true maximum of all originally retrieved hit scores, on the
    filter path and on the fallback path alike. -/
theorem C2_max_confidence_true_maximum {E : Type} (threshold : ℚ)
    (query : Str) (inc : Bool)
    (gen : Str → List ContextChunk → Bool → Except E Str)
    (r : Hit) (rs : List Hit) (k : Nat)
    (hsorted : List.Pairwise (fun a b => b.score ≤ a.score) (r :: rs)) :
    ∀ out : Outcome, attemptOnce threshold query inc gen (r :: rs) k = .ok out →
      out.retrieval_metadata.max_confidence =
        some (pyMax ((r :: rs).map (·.score))) ∧
      out.confidence_score = pyMax ((r :: rs).map (·.score)) := by
  intro out hout
  have hrep := reportedMax_eq_pyMax threshold r rs ((List.pairwise_cons.mp hsorted).1)
  simp only [attemptOnce] at hout
  cases hg : gen query ((survivingHits threshold (r :: rs)).map toContextChunk) inc with
  | error e => rw [hg] at hout; simp [Except.map] at hout
  | ok ans =>
      rw [hg] at hout
      simp only [Except.map, Except.ok.injEq] at hout
      rw [← hout]
      exact ⟨by rw [← hrep], by rw [← hrep]⟩

/-- C2 witness: a concrete successful attempt with sorted scores 0.9 and
    0.4, threshold 0.5 and a trivial generator. -/
theorem C2_witness :
    (⟨[], [],
      reportedMax (mkRat 1 2) [⟨"a".toList, mkRat 9 10, ⟨none, none⟩⟩,
        ⟨"b".toList, mkRat 4 10, ⟨none, none⟩⟩],
      ⟨(survivingHits (mkRat 1 2) [⟨"a".toList, mkRat 9 10, ⟨none, none⟩⟩,
          ⟨"b".toList, mkRat 4 10, ⟨none, none⟩⟩]).length, some 2,
        some (pyAvg (([⟨"a".toList, mkRat 9 10, ⟨none, none⟩⟩,
          ⟨"b".toList, mkRat 4 10, ⟨none, none⟩⟩] : List Hit).map (·.score))),
        some (reportedMax (mkRat 1 2) [⟨"a".toList, mkRat 9 10, ⟨none, none⟩⟩,
          ⟨"b".toList, mkRat 4 10, ⟨none, none⟩⟩]),
        some (mkRat 1 2), 1⟩⟩ : Outcome).retrieval_metadata.max_confidence =
      some (pyMax (([⟨"a".toList, mkRat 9 10, ⟨none, none⟩⟩,
        ⟨"b".toList, mkRat 4 10, ⟨none, none⟩⟩] : List Hit).map (·.score))) :=
  (C2_max_confidence_true_maximum (E := Unit) (mkRat 1 2) [] false
    (fun _ _ _ => .ok []) ⟨"a".toList, mkRat 9 10, ⟨none, none⟩⟩
    [⟨"b".toList, mkRat 4 10, ⟨none, none⟩⟩] 0 (by decide) _ rfl).1

/-- C8: for every surviving hit turned into a context chunk, the built
    Citation keeps the text unchanged when it has at most 200 characters
    (exactly 200 included) and truncates to the first 200 characters plus
    an ellipsis when it has 201 or more. -/
theorem C8_citation_truncation (chunks : List ContextChunk) (c : ContextChunk)
    (hmem : c ∈ chunks) :
    mkCitation c ∈ build_citations chunks ∧
    (c.text.length ≤ 200 → (mkCitation c).text = c.text) ∧
    (200 < c.text.length →
      (mkCitation c).text = c.text.take 200 ++ "...".toList) := by
  refine ⟨List.mem_map_of_mem mkCitation hmem, ?_, ?_⟩
  · intro h
    simp only [mkCitation]
    rw [if_neg (by omega)]
  · intro h
    simp only [mkCitation]
    rw [if_pos h]

/-- C8 witness: a 200-character text is kept untruncated. -/
theorem C8_witness :
    (mkCitation ⟨List.replicate 200 'a', [], [], 0, ⟨none, none⟩⟩).text =
      List.replicate 200 'a' :=
  ((C8_citation_truncation [⟨List.replicate 200 'a', [], [], 0, ⟨none, none⟩⟩]
    ⟨List.replicate 200 'a', [], [], 0, ⟨none, none⟩⟩
    (List.mem_singleton.mpr rfl)).2.1 (by rw [List.length_replicate]))

/-- C3: with max_retries n at least 1, if every attempt raises then exactly
    n attempts run, a backoff sleep of two to the k follows each failed
    attempt k except the last, and the final failure cause is propagated;
    a successful attempt short-circuits all remaining attempts, sleeping
    only after the attempts that failed before it. -/
theorem C3_retry_backoff_and_short_circuit {E A : Type} (n : Nat) (hn : 1 ≤ n)
    (att : Nat → Except E A) :
    (∀ err : Nat → E, (∀ k, att k = .error (err k)) →
      retryLoop n att = ⟨n, (List.range (n - 1)).map (fun j => 2 ^ j),
        .error (.attemptFailed (err (n - 1)))⟩) ∧
    (∀ (j : Nat) (a : A), j < n → att j = .ok a →
      (∀ i, i < j → ∃ e, att i = .error e) →
      retryLoop n att = ⟨j + 1, (List.range j).map (fun i => 2 ^ i), .ok a⟩) := by
  obtain ⟨f, rfl⟩ : ∃ f, n = f + 1 := ⟨n - 1, by omega⟩
  constructor
  · intro err hfail
    rw [retryLoop, retryGo_all_fail att err hfail f 0]
    simp
  · intro j a hj hok hprev
    rw [retryLoop, retryGo_first_success att (f + 1) 0 j a hj (by simpa using hok)
      (fun i hi => by simpa using hprev i hi)]
    simp

/-- C3 witness: with 3 attempts that all fail, 3 attempts run with sleeps
    1 and 2 and the last cause propagates; a first-attempt success makes a
    single attempt with no sleep. -/
theorem C3_witness :
    retryLoop 3 (fun _ => (.error 7 : Except Nat Bool)) =
      ⟨3, (List.range 2).map (fun j => 2 ^ j), .error (.attemptFailed 7)⟩ ∧
    retryLoop 3 (fun _ => (.ok true : Except Nat Bool)) =
      ⟨1, (List.range 0).map (fun i => 2 ^ i), .ok true⟩ :=
  ⟨(C3_retry_backoff_and_short_circuit 3 (by decide)
      (fun _ => (.error 7 : Except Nat Bool))).1 (fun _ => 7) (fun _ => rfl),
   (C3_retry_backoff_and_short_circuit 3 (by decide)
      (fun _ => (.ok true : Except Nat Bool))).2 0 true (by decide) rfl
      (fun i hi => absurd hi (by omega))⟩

/-- C4: when the vector store returns zero hits on an attempt (after any
    earlier attempts failed in the provider calls), retrieve_and_answer
    returns immediately as a success with no further retry: the trace shows
    that attempt as the last one, sleeps only for the earlier failures, and
    the outcome carries the canned no-relevant-information answer, an empty
    citation list, confidence 0, retrieval_count 0 and the 1-based attempt
    number. -/
theorem C4_zero_hits_immediate_success {E : Type} (n j : Nat) (hj : j < n)
    (defaultTopK : Int) (defaultThreshold : ℚ) (query : Str)
    (topK : Option Int) (ct : Option ℚ) (inc : Bool)
    (fetch : Int → Nat → Except E (List Hit))
    (gen : Str → List ContextChunk → Bool → Except E Str)
    (hfetch : fetch (resolveTopK topK defaultTopK) j = .ok [])
    (hprev : ∀ i, i < j → ∃ e, fetch (resolveTopK topK defaultTopK) i = .error e) :
    retrieve_and_answer n defaultTopK defaultThreshold query topK ct inc
        fetch gen =
      ⟨j + 1, (List.range j).map (fun i => 2 ^ i), .ok (zeroHitOutcome j)⟩ ∧
    (zeroHitOutcome j).answer =
      "I couldn\x27t find any relevant information to answer your question.".toList ∧
    (zeroHitOutcome j).citations = [] ∧
    (zeroHitOutcome j).confidence_score = 0 ∧
    (zeroHitOutcome j).retrieval_metadata.retrieval_count = 0 ∧
    (zeroHitOutcome j).retrieval_metadata.attempt = j + 1 := by
  refine ⟨?_, rfl, rfl, rfl, rfl, rfl⟩
  have hok : (fun k =>
      match fetch (resolveTopK topK defaultTopK) k with
      | Except.error e => Except.error e
      | Except.ok results =>
          attemptOnce (resolveThreshold ct defaultThreshold) query inc gen
            results k) (0 + j) = .ok (zeroHitOutcome j) := by
    simp only [Nat.zero_add, hfetch]
    rfl
  have hprev2 : ∀ i, i < j → ∃ e2, (fun k =>
      match fetch (resolveTopK topK defaultTopK) k with
      | Except.error e => Except.error e
      | Except.ok results =>
          attemptOnce (resolveThreshold ct defaultThreshold) query inc gen
            results k) (0 + i) = .error e2 := by
    intro i hi
    obtain ⟨e2, he2⟩ := hprev i hi
    exact ⟨e2, by simp only [Nat.zero_add, he2]⟩
  have h := retryGo_first_success
    (fun k =>
      match fetch (resolveTopK topK defaultTopK) k with
      | Except.error e => Except.error e
      | Except.ok results =>
          attemptOnce (resolveThreshold ct defaultThreshold) query inc gen
            results k)
    n 0 j (zeroHitOutcome j) hj hok hprev2
  simp only [retrieve_and_answer, retryLoop]
  exact h.trans (by simp)

/-- C4 witness: a concrete run against an empty store succeeding on the
    first attempt. -/
theorem C4_witness :
    retrieve_and_answer (E := Unit) 3 5 (mkRat 7 10) ("q".toList) none none true
      (fun _ _ => .ok []) (fun _ _ _ => .ok []) =
      ⟨0 + 1, (List.range 0).map (fun i => 2 ^ i), .ok (zeroHitOutcome 0)⟩ :=
  (C4_zero_hits_immediate_success 3 0 (by decide) 5 (mkRat 7 10) ("q".toList)
    none none true (fun _ _ => .ok []) (fun _ _ _ => .ok []) rfl
    (fun i hi => absurd hi (by omega))).1

/-- C9 counterexample: supplying the boundary value 0.0 as the call-site
    confidence_threshold does not make the effective threshold 0: the Python
    or-expression treats 0.0 as falsy and falls back to the configured
    default 0.7. -/
theorem C9_counterexample :
    resolveThreshold (some 0) (7/10) = 7/10 ∧ (7/10 : ℚ) ≠ 0 :=
  ⟨rfl, by norm_num⟩

/-- C9 (amended): the effective threshold equals the supplied
    confidence_threshold when one is supplied and nonzero, and the
    configured default when it is omitted or 0.0 (Python falsiness);
    likewise the effective top_k equals the supplied top_k when nonzero and
    the default when omitted or 0; and every successful outcome carrying a
    threshold_used field reports exactly the effective threshold. -/
theorem C9_threshold_resolution_amended (d : ℚ) (dk : Int) :
    (∀ v : ℚ, v ≠ 0 → resolveThreshold (some v) d = v) ∧
    resolveThreshold none d = d ∧
    resolveThreshold (some 0) d = d ∧
    (∀ v : Int, v ≠ 0 → resolveTopK (some v) dk = v) ∧
    resolveTopK none dk = dk ∧
    resolveTopK (some 0) dk = dk ∧
    (∀ (E : Type) (n : Nat) (q : Str) (topK : Option Int) (ct : Option ℚ)
        (inc : Bool) (fetch : Int → Nat → Except E (List Hit))
        (gen : Str → List ContextChunk → Bool → Except E Str) (out : Outcome),
      (retrieve_and_answer n dk d q topK ct inc fetch gen).result = .ok out →
      out.retrieval_metadata.threshold_used = none ∨
      out.retrieval_metadata.threshold_used = some (resolveThreshold ct d)) := by
  refine ⟨?_, rfl, by simp [resolveThreshold], ?_, rfl, by simp [resolveTopK], ?_⟩
  · intro v hv
    simp [resolveThreshold, hv]
  · intro v hv
    simp [resolveTopK, hv]
  · intro E n q topK ct inc fetch gen out h
    unfold retrieve_and_answer at h
    obtain ⟨j, hj⟩ := retryGo_result_ok _ n 0 out h
    cases hf : fetch (resolveTopK topK dk) j with
    | error e => rw [hf] at hj; simp at hj
    | ok results =>
        rw [hf] at hj
        exact attemptOnce_ok_threshold _ _ _ _ _ _ _ hj

/-- C9 witness: applying the amended theorem with default 0.7 at a nonzero
    override, an omitted override and a zero override. -/
theorem C9_witness :
    resolveThreshold (some (mkRat 1 2)) (mkRat 7 10) = mkRat 1 2 ∧
    resolveThreshold none (mkRat 7 10) = mkRat 7 10 ∧
    resolveThreshold (some 0) (mkRat 7 10) = mkRat 7 10 ∧
    resolveTopK (some 3) 5 = 3 ∧ resolveTopK none 5 = 5 ∧
    resolveTopK (some 0) 5 = 5 :=
  ⟨(C9_threshold_resolution_amended (mkRat 7 10) 5).1 (mkRat 1 2) (by decide),
   (C9_threshold_resolution_amended (mkRat 7 10) 5).2.1,
   (C9_threshold_resolution_amended (mkRat 7 10) 5).2.2.1,
   (C9_threshold_resolution_amended (mkRat 7 10) 5).2.2.2.1 3 (by decide),
   (C9_threshold_resolution_amended (mkRat 7 10) 5).2.2.2.2.1,
   (C9_threshold_resolution_amended (mkRat 7 10) 5).2.2.2.2.2.1⟩
